import Mathlib

/-!
Verification of the document-format engine of the `pillar` issue tracker
(`src/parser.rs`): the YAML-frontmatter split (`parse_frontmatter`,
`write_with_frontmatter`) and the embedded comment-log codec
(`read_comments`, `write_comments`).

Strings are modelled as lists of characters (`Str`).  Rust's byte indices
are modelled as character indices; every pattern the code searches for is
ASCII, and every slice boundary the code computes is the result of a
search, so the two views agree.  The external YAML serializer is modelled
as an abstract pair of functions (`ser`, `de`), as the specification
treats it (an opaque capability boundary).  `uuid::Uuid::new_v4` is
modelled as an identifier supply `ids : Nat → Str` handed to
`read_comments`: `ids k` is the k-th identifier the generator returns.
-/

/-- Strings as character lists. -/
abbrev Str : Type := List Char

/-- Conversion from Lean string literals to the character-list model. -/
def S (s : String) : Str := s.data

/-- Unicode `White_Space` characters, as used by Rust's `char::is_whitespace`
(and hence `str::trim` / `str::trim_end`). -/
def isWs (c : Char) : Bool :=
  c = ' ' ||
  c = '\t' ||
  c = '\n' ||
  c = '\r' ||
  c = '\x0b' ||
  c = '\x0c' ||
  c = '\u0085' ||
  c = '\u00a0' ||
  c = '\u1680' ||
  c = '\u2000' ||
  c = '\u2001' ||
  c = '\u2002' ||
  c = '\u2003' ||
  c = '\u2004' ||
  c = '\u2005' ||
  c = '\u2006' ||
  c = '\u2007' ||
  c = '\u2008' ||
  c = '\u2009' ||
  c = '\u200a' ||
  c = '\u2028' ||
  c = '\u2029' ||
  c = '\u202f' ||
  c = '\u205f' ||
  c = '\u3000'

/-- Rust `str::trim_start`. -/
def trimStart (s : Str) : Str := s.dropWhile isWs

/-- Rust `str::trim_end`. -/
def trimEnd (s : Str) : Str := (s.reverse.dropWhile isWs).reverse

/-- Rust `str::trim`. -/
def trim (s : Str) : Str := trimStart (trimEnd s)

/-- `begins pat s` holds when `s` starts with `pat`
(Rust `str::starts_with`). -/
def begins : Str → Str → Bool
  | [], _ => true
  | _ :: _, [] => false
  | p :: ps, c :: cs => p = c && begins ps cs

/-- Index of the first occurrence of `pat` in `s` (Rust `str::find`). -/
def findSub (pat : Str) : Str → Option Nat
  | [] => if begins pat [] then some 0 else none
  | c :: t => if begins pat (c :: t) then some 0 else (findSub pat t).map (· + 1)

/-- Whether `pat` occurs anywhere in `s` (Rust `str::contains`). -/
def hasSub (pat s : Str) : Bool := (findSub pat s).isSome

/-- `endsWith suf s` holds when `s` ends with `suf` (Rust `str::ends_with`). -/
def endsWith (suf s : Str) : Bool := begins suf.reverse s.reverse

/-- Split a character list at every newline; always returns at least one
part, and `joinNl` is its inverse. -/
def splitOnNl : Str → List Str
  | [] => [[]]
  | c :: t =>
    if c = '\n' then [] :: splitOnNl t
    else
      match splitOnNl t with
      | [] => [[c]]
      | h :: r => (c :: h) :: r

/-- Join parts with newlines (Rust `[&str]::join("\n")`). -/
def joinNl : List Str → Str
  | [] => []
  | [l] => l
  | l :: ls => l ++ '\n' :: joinNl ls

/-- Remove one trailing carriage return, as Rust `str::lines` does to each
newline-terminated line. -/
def stripCR (l : Str) : Str :=
  if l.getLast? = some '\r' then l.dropLast else l

/-- Rust `str::lines`: split at `'\n'`, strip one `'\r'` from each
newline-terminated line, and do not produce a final empty line for a
trailing newline. -/
def rustLines (s : Str) : List Str :=
  (splitOnNl s).dropLast.map stripCR ++
    (match (splitOnNl s).getLast? with
     | some [] => []
     | some l => [l]
     | none => [])

-- Basic sanity checks of the Rust-library models.
example : rustLines (S ("a\nb\n")) = [S ("a"), S ("b")] := by decide
example : rustLines (S ("a\r\nb")) = [S ("a"), S ("b")] := by decide
example : rustLines (S ("a\r")) = [S ("a\r")] := by decide
example : rustLines [] = [] := by decide
example : rustLines (S ("\n")) = [[]] := by decide
example : trim (S (" \n x \t")) = S ("x") := by decide
example : findSub (S ("ab")) (S ("xxabab")) = some 2 := by decide
example : findSub (S ("ab")) (S ("xx")) = none := by decide
example : endsWith (S ("nts")) (S ("Comments")) = true := by decide

/-! ## The document format engine (embedding of `src/parser.rs`) -/

/-- The frontmatter delimiter `---`. -/
def d3 : Str := S ("---")

/-- The closing-delimiter search pattern `"\n---"` of `parse_frontmatter`. -/
def nl3 : Str := S ("\n---")

/-- The newline-preceded comments-heading pattern `"\n## Comments\n"`. -/
def pat13 : Str := S ("\n## Comments\n")

/-- The comments heading at the start of a body, `"## Comments\n"`. -/
def headNl : Str := S ("## Comments\n")

/-- The comment-entry marker line pattern `"### ["`. -/
def markerPre : Str := S ("### [")

/-- The higher-level heading pattern `"## "`. -/
def hh2 : Str := S ("## ")

/-- The timestamp/author separator `" - "`. -/
def sep3 : Str := S (" - ")

/-- Error kinds of the frontmatter codec (`anyhow` errors in the source,
distinguished by their messages). -/
inductive FormatError where
  | missingDelimiter
  | unterminatedHeader
  | headerDecodeError
deriving DecidableEq, Repr

deriving instance DecidableEq for Except

/-- Embedding of `parse_frontmatter` (src/parser.rs:10-32).  The YAML
deserializer `serde_yaml::from_str` is abstracted as `de`; the function
returns the decoded header together with the trimmed body. -/
def parse_frontmatter {H : Type} (de : Str → Except Unit H) (content : Str) :
    Except FormatError (H × Str) :=
  let c := trim content
  if begins d3 c then
    match findSub nl3 (c.drop 3) with
    | none => .error .unterminatedHeader
    | some p =>
      match de ((c.drop 3).take p) with
      | .ok h => .ok (h, trim ((c.drop 3).drop (p + 4)))
      | .error _ => .error .headerDecodeError
  else .error .missingDelimiter

/-- Embedding of `write_with_frontmatter` (src/parser.rs:84-98): the file
content `format!("---\n{}---\n\n{}", frontmatter, body.trim())`, with the
YAML serializer abstracted as `ser`. -/
def write_with_frontmatter {H : Type} (ser : H → Str) (h : H) (body : Str) : Str :=
  d3 ++ '\n' :: ser h ++ d3 ++ '\n' :: '\n' :: trim body

/-- A comment entry (`models::Comment`). -/
structure Comment where
  id : Str
  author : Str
  timestamp : Str
  content : Str
deriving DecidableEq, Repr

/-- Author extraction from the text after the closing bracket of a marker
line (src/parser.rs:134-138). -/
def parseAuthor (rest : Str) : Str :=
  match findSub sep3 rest with
  | some d => trim (rest.drop (d + 3))
  | none => S ("Unknown")

/-- Header parsing of a `### [` marker line (src/parser.rs:130-145):
`some (timestamp, author)` when the line contains a closing bracket,
`none` otherwise. -/
def parseMarker (l : Str) : Option (Str × Str) :=
  match findSub [']'] l with
  | none => none
  | some cb => some ((l.drop 5).take (cb - 5), parseAuthor (l.drop (cb + 1)))

/-- The line-scanning loop of `read_comments` (src/parser.rs:117-160),
including the final flush after the loop.  The state is the pending
`(timestamp, author)` of the open comment and the accumulated content
lines; entries are emitted as `(timestamp, author, content)` triples. -/
def scan : List Str → Option (Str × Str) → List Str → List (Str × Str × Str)
  | [], none, _ => []
  | [], some p, acc => [(p.1, p.2, trim (joinNl acc))]
  | l :: ls, cur, acc =>
    if begins markerPre l then
      match cur with
      | some p => (p.1, p.2, trim (joinNl acc)) :: scan ls (parseMarker l) []
      | none => scan ls (parseMarker l) acc
    else if begins hh2 l then
      match cur with
      | some p => [(p.1, p.2, trim (joinNl acc))]
      | none => []
    else
      match cur with
      | some p => scan ls (some p) (acc ++ [l])
      | none => scan ls none acc

/-- Attach the freshly generated identifiers to the scanned triples:
`ids k` models the k-th value returned by `uuid::Uuid::new_v4`
(src/parser.rs:141 generates one identifier per parsed entry, in
encounter order). -/
def withIdsFrom (ids : Nat → Str) : Nat → List (Str × Str × Str) → List Comment
  | _, [] => []
  | i, t :: ts => ⟨ids i, t.2.1, t.1, t.2.2⟩ :: withIdsFrom ids (i + 1) ts

/-- Embedding of `read_comments` (src/parser.rs:104-163). -/
def read_comments (ids : Nat → Str) (body : Str) : List Comment :=
  match findSub pat13 body with
  | some p => withIdsFrom ids 0 (scan (rustLines (body.drop (p + 13))) none [])
  | none =>
    if begins headNl body then
      withIdsFrom ids 0 (scan (rustLines (body.drop 12)) none [])
    else []

/-- The comments-section removal phase of `write_comments`
(src/parser.rs:168-175). -/
def bodyWithout (body : Str) : Str :=
  match findSub pat13 body with
  | some p => trimEnd (body.take p)
  | none => if begins headNl body then [] else trimEnd body

/-- The text appended for one comment by `write_comments`
(src/parser.rs:184-188): `format!("\n### [{}] - {}\n", ...)`, then the
content, then a newline. -/
def entryBlock (c : Comment) : Str :=
  '\n' :: markerPre ++ c.timestamp ++ S ("] - ") ++ c.author ++
    '\n' :: c.content ++ ['\n']

/-- Concatenation of the entry blocks of a comment list. -/
def renderEntries : List Comment → Str
  | [] => []
  | c :: cs => entryBlock c ++ renderEntries cs

/-- Embedding of `write_comments` (src/parser.rs:167-191). -/
def write_comments (body : Str) (comments : List Comment) : Str :=
  if comments = [] then bodyWithout body
  else bodyWithout body ++ S ("\n\n## Comments\n") ++ renderEntries comments

-- The Rust unit tests of `parser.rs`, replayed against the embedding.
example :
    read_comments (fun _ => []) (S ("# Issue\n\nSome content here.")) = [] := by
  decide

example :
    read_comments (fun _ => [])
      (S ("# D\n\n## Comments\n\n### [2025-12-29T10:30:00Z] - Alice\nThis is a comment\n")) =
    [⟨[], S ("Alice"), S ("2025-12-29T10:30:00Z"), S ("This is a comment")⟩] := by
  decide

example :
    (read_comments (fun _ => [])
      (S ("# D\n\n## Comments\n\n### [t1] - Alice\nFirst comment\n\n### [t2] - Bob\nSecond comment\nwith multiple lines\n\n### [t3] - Charlie\nThird comment\n"))).map
        (fun c => (c.author, c.content)) =
    [(S ("Alice"), S ("First comment")),
     (S ("Bob"), S ("Second comment\nwith multiple lines")),
     (S ("Charlie"), S ("Third comment"))] := by
  decide

example :
    write_comments (S ("# Issue Description\n\nSome content.")) [] =
    S ("# Issue Description\n\nSome content.") := by
  decide

example :
    write_comments (S ("# D\n\nSome content."))
      [⟨S ("1"), S ("Alice"), S ("t1"), S ("Test comment")⟩] =
    S ("# D\n\nSome content.\n\n## Comments\n\n### [t1] - Alice\nTest comment\n") := by
  decide

example :
    hasSub (S ("OldUser"))
      (write_comments (S ("# D\n\n## Comments\n\n### [t0] - OldUser\nOld comment\n"))
        [⟨S ("2"), S ("NewUser"), S ("t1"), S ("New comment")⟩]) = false := by
  decide

example :
    parse_frontmatter (fun s => Except.ok s) (S ("---\ntitle: T\n---\n\nBody text.\n")) =
    Except.ok (S ("\ntitle: T"), S ("Body text.")) := by
  decide

example :
    parse_frontmatter (fun s => Except.ok s) (S ("No frontmatter here")) =
    Except.error FormatError.missingDelimiter := by
  decide

example :
    parse_frontmatter (fun s => Except.ok s) (S ("---\nkey: 1\n")) =
    Except.error FormatError.unterminatedHeader := by
  decide

/-! ## Toolkit: `begins` and `findSub` -/

theorem not_begins {p s : Str} (h : ¬ begins p s = true) : begins p s = false := by
  cases hb : begins p s
  · rfl
  · exact absurd hb h

theorem begins_iff {p s : Str} : begins p s = true ↔ ∃ t, s = p ++ t := by
  induction p generalizing s with
  | nil => simp [begins]
  | cons a ps ih =>
    cases s with
    | nil =>
      constructor
      · intro h; exact absurd h (by simp [begins])
      · rintro ⟨t, ht⟩; exact absurd ht (by simp)
    | cons c cs =>
      have hdef : begins (a :: ps) (c :: cs) = (decide (a = c) && begins ps cs) := rfl
      rw [hdef, Bool.and_eq_true, decide_eq_true_eq, ih]
      constructor
      · rintro ⟨rfl, t, rfl⟩; exact ⟨t, by simp⟩
      · rintro ⟨t, ht⟩
        rw [List.cons_append] at ht
        injection ht with h1 h2
        exact ⟨h1.symm, t, h2⟩

theorem begins_append_self (p t : Str) : begins p (p ++ t) = true :=
  begins_iff.mpr ⟨t, rfl⟩

theorem begins_refl (p : Str) : begins p p = true := by
  simpa using begins_append_self p []

theorem begins_append_right {p a : Str} (w : Str) (h : begins p a = true) :
    begins p (a ++ w) = true := by
  obtain ⟨t, rfl⟩ := begins_iff.mp h
  simpa [List.append_assoc] using begins_append_self p (t ++ w)

theorem begins_head {p s : Str} (hp : p ≠ []) (h : begins p s = true) :
    s.head? = p.head? := by
  obtain ⟨t, rfl⟩ := begins_iff.mp h
  cases p with
  | nil => exact absurd rfl hp
  | cons a ps => rfl

theorem begins_append_left {p a : Str} (b : Str) (h : p.length ≤ a.length) :
    begins p (a ++ b) = begins p a := by
  induction p generalizing a with
  | nil => simp [begins]
  | cons x ps ih =>
    cases a with
    | nil => simp at h
    | cons c cs =>
      rw [List.cons_append]
      show (decide (x = c) && begins ps (cs ++ b)) = (decide (x = c) && begins ps cs)
      rw [ih (by simpa using h)]

theorem begins_split {p a : Str} (b : Str) (h : a.length ≤ p.length) :
    begins p (a ++ b) = true ↔
      a = p.take a.length ∧ begins (p.drop a.length) b = true := by
  induction a generalizing p with
  | nil => simp
  | cons c cs ih =>
    cases p with
    | nil => simp at h
    | cons x ps =>
      rw [List.cons_append]
      show (decide (x = c) && begins ps (cs ++ b)) = true ↔ _
      rw [Bool.and_eq_true, decide_eq_true_eq, ih (by simpa using h)]
      simp only [List.length_cons, List.take_succ_cons, List.drop_succ_cons,
        List.cons.injEq]
      constructor
      · rintro ⟨rfl, h1, h2⟩; exact ⟨⟨rfl, h1⟩, h2⟩
      · rintro ⟨⟨rfl, h1⟩, h2⟩; exact ⟨rfl, h1, h2⟩

theorem begins_of_take {p x : Str} {k : Nat} (h : begins p (x.take k) = true) :
    begins p x = true := by
  obtain ⟨t, ht⟩ := begins_iff.mp h
  refine begins_iff.mpr ⟨t ++ x.drop k, ?_⟩
  conv_lhs => rw [← List.take_append_drop k x]
  rw [ht, List.append_assoc]

theorem findSub_nil (pat : Str) :
    findSub pat [] = if begins pat [] then some 0 else none := rfl

theorem findSub_cons (pat : Str) (c : Char) (t : Str) :
    findSub pat (c :: t) =
      if begins pat (c :: t) then some 0 else (findSub pat t).map (· + 1) := rfl

theorem findSub_some_iff {pat s : Str} {n : Nat} :
    findSub pat s = some n ↔
      begins pat (s.drop n) = true ∧
        ∀ m, m < n → begins pat (s.drop m) = false := by
  induction s generalizing n with
  | nil =>
    rw [findSub_nil]
    by_cases hb : begins pat [] = true
    · rw [if_pos hb]
      constructor
      · intro h
        cases Option.some.inj h
        exact ⟨by simpa using hb, by omega⟩
      · rintro ⟨-, hm⟩
        rcases Nat.eq_zero_or_pos n with rfl | hn
        · rfl
        · exfalso
          have h0 := hm 0 hn
          rw [List.drop_nil, hb] at h0
          exact Bool.noConfusion h0
    · rw [if_neg hb]
      constructor
      · intro h; exact Option.noConfusion h
      · rintro ⟨h1, -⟩
        rw [List.drop_nil] at h1
        exact absurd h1 hb
  | cons c t ih =>
    rw [findSub_cons]
    by_cases hb : begins pat (c :: t) = true
    · rw [if_pos hb]
      constructor
      · intro h
        cases Option.some.inj h
        exact ⟨by simpa using hb, by omega⟩
      · rintro ⟨-, hm⟩
        rcases Nat.eq_zero_or_pos n with rfl | hn
        · rfl
        · exfalso
          have h0 := hm 0 hn
          rw [List.drop_zero, hb] at h0
          exact Bool.noConfusion h0
    · rw [if_neg hb]
      have hbf : begins pat (c :: t) = false := not_begins hb
      constructor
      · intro h
        rcases Option.map_eq_some'.mp h with ⟨k, hk, rfl⟩
        rcases ih.mp hk with ⟨h1, hm⟩
        refine ⟨by simpa using h1, ?_⟩
        intro m hm'
        cases m with
        | zero => simpa using hbf
        | succ m' => simpa using hm m' (by omega)
      · rintro ⟨h1, hm⟩
        cases n with
        | zero =>
          exfalso
          rw [List.drop_zero] at h1
          exact absurd h1 hb
        | succ k =>
          have hk : findSub pat t = some k := by
            refine ih.mpr ⟨by simpa using h1, ?_⟩
            intro m hm'
            simpa using hm (m + 1) (by omega)
          rw [hk]; rfl

theorem findSub_none_iff {pat s : Str} :
    findSub pat s = none ↔ ∀ m, begins pat (s.drop m) = false := by
  induction s with
  | nil =>
    rw [findSub_nil]
    by_cases hb : begins pat [] = true
    · rw [if_pos hb]
      constructor
      · intro h; exact Option.noConfusion h
      · intro h
        exfalso
        have h0 := h 0
        rw [List.drop_nil, hb] at h0
        exact Bool.noConfusion h0
    · rw [if_neg hb]
      constructor
      · intro _ m
        rw [List.drop_nil]
        exact not_begins hb
      · intro _; rfl
  | cons c t ih =>
    rw [findSub_cons]
    by_cases hb : begins pat (c :: t) = true
    · rw [if_pos hb]
      constructor
      · intro h; exact Option.noConfusion h
      · intro h
        exfalso
        have h0 := h 0
        rw [List.drop_zero, hb] at h0
        exact Bool.noConfusion h0
    · rw [if_neg hb]
      constructor
      · intro h m
        have ht : findSub pat t = none := by
          cases hft : findSub pat t with
          | none => rfl
          | some k => rw [hft] at h; exact Option.noConfusion h
        cases m with
        | zero => simpa using not_begins hb
        | succ m' => simpa using (ih.mp ht) m'
      · intro h
        have ht : findSub pat t = none := ih.mpr (fun m => by simpa using h (m + 1))
        rw [ht]; rfl

theorem drop_app_of_le {a : Str} (b : Str) {m : Nat} (h : m ≤ a.length) :
    (a ++ b).drop m = a.drop m ++ b := by
  induction a generalizing m with
  | nil =>
    have : m = 0 := by simpa using h
    subst this; rfl
  | cons c cs ih =>
    cases m with
    | zero => rfl
    | succ m' =>
      rw [List.cons_append, List.drop_succ_cons, List.drop_succ_cons]
      exact ih (by simpa using h)

theorem take_app_of_le {a : Str} (b : Str) {m : Nat} (h : m ≤ a.length) :
    (a ++ b).take m = a.take m := by
  induction a generalizing m with
  | nil =>
    have : m = 0 := by simpa using h
    subst this; rfl
  | cons c cs ih =>
    cases m with
    | zero => rfl
    | succ m' =>
      rw [List.cons_append, List.take_succ_cons, List.take_succ_cons]
      rw [ih (by simpa using h)]

theorem findSub_of_append_none {pat x : Str} (w : Str)
    (h : findSub pat (x ++ w) = none) : findSub pat x = none := by
  have hall := findSub_none_iff.mp h
  refine findSub_none_iff.mpr fun m => ?_
  by_cases hm : m ≤ x.length
  · refine not_begins fun htrue => ?_
    have : begins pat ((x ++ w).drop m) = true := by
      rw [drop_app_of_le w hm]
      exact begins_append_right w htrue
    rw [hall m] at this
    exact Bool.noConfusion this
  · rw [List.drop_eq_nil_of_le (by omega)]
    have := hall (x ++ w).length
    rwa [List.drop_length] at this

/-- The first occurrence of `pat` in `A ++ pat ++ X` at position `A.length`
does not depend on `X`. -/
theorem findSub_at_append {pat A X : Str} (Y : Str)
    (h : findSub pat (A ++ (pat ++ X)) = some A.length) :
    findSub pat (A ++ (pat ++ Y)) = some A.length := by
  rcases findSub_some_iff.mp h with ⟨-, hm⟩
  refine findSub_some_iff.mpr ⟨?_, ?_⟩
  · rw [List.drop_left]
    exact begins_append_self pat Y
  · intro m hmlt
    have hmle : m ≤ A.length := le_of_lt hmlt
    have key : ∀ Z : Str, begins pat ((A ++ (pat ++ Z)).drop m) =
        begins pat (A.drop m ++ pat) := by
      intro Z
      rw [drop_app_of_le (pat ++ Z) hmle, ← List.append_assoc]
      exact begins_append_left Z (by simp)
    have hX := hm m hmlt
    rw [key X] at hX
    rw [key Y]
    exact hX

/-- Placing `pat` after a text `h` in which it does not occur: the first
occurrence of `pat` in `h ++ pat ++ t` is at `h.length`, provided no
occurrence spans the boundary (hypothesis `hspan`). -/
theorem findSub_glue {pat h : Str} (t : Str)
    (hnone : findSub pat h = none)
    (hspan : ∀ m, 1 ≤ m → m < pat.length →
      ¬(h.drop (h.length - m) = pat.take m ∧
        begins (pat.drop m) (pat ++ t) = true)) :
    findSub pat (h ++ (pat ++ t)) = some h.length := by
  refine findSub_some_iff.mpr ⟨?_, ?_⟩
  · rw [List.drop_left]
    exact begins_append_self pat t
  · intro q hq
    refine not_begins fun htrue => ?_
    rw [drop_app_of_le (pat ++ t) (le_of_lt hq)] at htrue
    rcases Nat.lt_or_ge (h.drop q).length pat.length with hlt | hge
    · rcases (begins_split (pat ++ t) (le_of_lt hlt)).mp htrue with ⟨h1, h2⟩
      have hm1 : (h.drop q).length = h.length - q := by simp
      rw [hm1] at h1
      refine hspan (h.drop q).length (by simp; omega) hlt ⟨?_, h2⟩
      · rw [hm1, show h.length - (h.length - q) = q by omega]
        exact h1
    · rw [begins_append_left (pat ++ t) hge] at htrue
      have := findSub_none_iff.mp hnone q
      rw [this] at htrue
      exact Bool.noConfusion htrue

/-! ## Toolkit: trimming -/

theorem head_dropWhile_false {p : Char → Bool} {l : Str} {c : Char}
    (h : (l.dropWhile p).head? = some c) : p c = false := by
  induction l with
  | nil => exact Option.noConfusion h
  | cons x xs ih =>
    rw [List.dropWhile_cons] at h
    by_cases hx : p x = true
    · rw [if_pos hx] at h
      exact ih h
    · rw [if_neg hx] at h
      have hxc : x = c := Option.some.inj h
      subst hxc
      cases hpx : p x
      · rfl
      · exact absurd hpx hx

theorem dropWhile_append_nil {p : Char → Bool} {a : Str} (b : Str)
    (h : a.dropWhile p = []) : (a ++ b).dropWhile p = b.dropWhile p := by
  induction a with
  | nil => rfl
  | cons c cs ih =>
    rw [List.dropWhile_cons] at h
    by_cases hc : p c = true
    · rw [if_pos hc] at h
      rw [List.cons_append, List.dropWhile_cons, if_pos hc]
      exact ih h
    · rw [if_neg hc] at h
      exact absurd h (by simp)

theorem dropWhile_append_pos {p : Char → Bool} {a : Str} (b : Str)
    (h : a.dropWhile p ≠ []) : (a ++ b).dropWhile p = a.dropWhile p ++ b := by
  induction a with
  | nil => exact absurd rfl h
  | cons c cs ih =>
    rw [List.dropWhile_cons] at h
    rw [List.cons_append, List.dropWhile_cons, List.dropWhile_cons]
    by_cases hc : p c = true
    · rw [if_pos hc] at h
      rw [if_pos hc, if_pos hc]
      exact ih h
    · rw [if_neg hc, if_neg hc]
      rfl

theorem trimStart_cons_not_ws {c : Char} (x : Str) (h : isWs c = false) :
    trimStart (c :: x) = c :: x := by
  unfold trimStart
  rw [List.dropWhile_cons, h]
  rfl

theorem trimStart_cons_ws {c : Char} (x : Str) (h : isWs c = true) :
    trimStart (c :: x) = trimStart x := by
  unfold trimStart
  rw [List.dropWhile_cons, h]
  rfl

theorem trimEnd_append_not_ws (x : Str) {c : Char} (h : isWs c = false) :
    trimEnd (x ++ [c]) = x ++ [c] := by
  unfold trimEnd
  rw [List.reverse_append, List.reverse_singleton, List.singleton_append,
    List.dropWhile_cons, h]
  simp

theorem trimEnd_append_ws (x : Str) {c : Char} (h : isWs c = true) :
    trimEnd (x ++ [c]) = trimEnd x := by
  unfold trimEnd
  rw [List.reverse_append, List.reverse_singleton, List.singleton_append,
    List.dropWhile_cons, h]
  rfl

theorem trim_append_ws (x : Str) {c : Char} (h : isWs c = true) :
    trim (x ++ [c]) = trim x := by
  unfold trim
  rw [trimEnd_append_ws x h]

theorem trim_cons_ws {c : Char} (x : Str) (h : isWs c = true) :
    trim (c :: x) = trim x := by
  unfold trim trimEnd
  rw [show (c :: x).reverse = x.reverse ++ [c] by simp]
  by_cases hd : x.reverse.dropWhile isWs = []
  · rw [dropWhile_append_nil [c] hd, hd]
    rw [show List.dropWhile isWs [c] = [] by rw [List.dropWhile_cons, h]; rfl]
  · rw [dropWhile_append_pos [c] hd, List.reverse_append, List.reverse_singleton,
      List.singleton_append]
    exact trimStart_cons_ws _ h

theorem trimEnd_decomp (s : Str) :
    ∃ w, s = trimEnd s ++ w ∧ ∀ c ∈ w, isWs c = true := by
  refine ⟨(s.reverse.takeWhile isWs).reverse, ?_, ?_⟩
  · conv_lhs => rw [← List.reverse_reverse s,
      ← List.takeWhile_append_dropWhile isWs s.reverse]
    rw [List.reverse_append]
    rfl
  · intro c hc
    rw [List.mem_reverse] at hc
    exact List.mem_takeWhile_imp hc

theorem findSub_trimEnd_none {pat s : Str} (h : findSub pat s = none) :
    findSub pat (trimEnd s) = none := by
  obtain ⟨w, hw, -⟩ := trimEnd_decomp s
  rw [hw] at h
  exact findSub_of_append_none w h

theorem trim_eq_self {s : Str}
    (h1 : ∀ c, s.head? = some c → isWs c = false)
    (h2 : ∀ c, s.getLast? = some c → isWs c = false) : trim s = s := by
  cases hs : s with
  | nil => rfl
  | cons a t =>
    have hne : s ≠ [] := by rw [hs]; simp
    obtain ⟨c, hc⟩ : ∃ c, s.getLast? = some c := by
      cases hg : s.getLast? with
      | none => exact absurd (List.getLast?_eq_none_iff.mp hg) hne
      | some c => exact ⟨c, rfl⟩
    have hsd : s = s.dropLast ++ [c] := (List.dropLast_append_getLast? c hc).symm
    rw [← hs]
    rw [hsd]
    unfold trim
    rw [trimEnd_append_not_ws _ (h2 c hc), ← hsd, hs]
    exact trimStart_cons_not_ws _ (h1 a (by rw [hs]; rfl))

theorem trim_getLast_not_ws {s : Str} {c : Char}
    (h : (trim s).getLast? = some c) : isWs c = false := by
  have hne : trimStart (trimEnd s) ≠ [] := by
    intro he
    rw [show trim s = trimStart (trimEnd s) from rfl, he] at h
    exact Option.noConfusion h
  unfold trim trimStart at h
  have hsplit : (trimEnd s).getLast? = ((trimEnd s).dropWhile isWs).getLast? := by
    conv_lhs => rw [← List.takeWhile_append_dropWhile isWs (trimEnd s)]
    exact List.getLast?_append_of_ne_nil _ hne
  unfold trimStart at hne
  rw [← hsplit] at h
  unfold trimEnd at h
  rw [List.getLast?_reverse] at h
  exact head_dropWhile_false h

theorem trim_head_not_ws {s : Str} {c : Char}
    (h : (trim s).head? = some c) : isWs c = false :=
  head_dropWhile_false h

/-! ## Toolkit: line splitting -/

theorem splitOnNl_ne_nil (s : Str) : splitOnNl s ≠ [] := by
  cases s with
  | nil => simp [splitOnNl]
  | cons c t =>
    unfold splitOnNl
    by_cases hc : c = '\n'
    · rw [if_pos hc]; simp
    · rw [if_neg hc]
      cases h : splitOnNl t <;> simp

theorem splitOnNl_cons_nl (t : Str) : splitOnNl ('\n' :: t) = [] :: splitOnNl t := by
  simp [splitOnNl]

theorem splitOnNl_cons_of_ne {c : Char} {t : Str} {h0 : Str} {r : List Str}
    (hc : ¬ c = '\n') (ht : splitOnNl t = h0 :: r) :
    splitOnNl (c :: t) = (c :: h0) :: r := by
  simp only [splitOnNl]
  rw [if_neg hc, ht]

theorem joinNl_splitOnNl (s : Str) : joinNl (splitOnNl s) = s := by
  induction s with
  | nil => rfl
  | cons c t ih =>
    obtain ⟨h0, r0, ht⟩ := List.exists_cons_of_ne_nil (splitOnNl_ne_nil t)
    rw [ht] at ih
    by_cases hc : c = '\n'
    · subst hc
      rw [splitOnNl_cons_nl, ht]
      show '\n' :: joinNl (h0 :: r0) = '\n' :: t
      rw [ih]
    · rw [splitOnNl_cons_of_ne hc ht]
      cases r0 with
      | nil =>
        show c :: h0 = c :: t
        rw [show joinNl [h0] = h0 from rfl] at ih
        rw [ih]
      | cons r1 rs =>
        show (c :: h0) ++ '\n' :: joinNl (r1 :: rs) = c :: t
        rw [List.cons_append]
        rw [show joinNl (h0 :: r1 :: rs) = h0 ++ '\n' :: joinNl (r1 :: rs) from rfl] at ih
        rw [ih]

theorem splitOnNl_append_nl (a b : Str) :
    splitOnNl (a ++ '\n' :: b) = splitOnNl a ++ splitOnNl b := by
  induction a with
  | nil => rw [List.nil_append, splitOnNl_cons_nl]; rfl
  | cons c cs ih =>
    by_cases hc : c = '\n'
    · subst hc
      rw [List.cons_append, splitOnNl_cons_nl, splitOnNl_cons_nl, ih,
        List.cons_append]
    · obtain ⟨h0, r0, hcs⟩ := List.exists_cons_of_ne_nil (splitOnNl_ne_nil cs)
      have hih : splitOnNl (cs ++ '\n' :: b) = h0 :: (r0 ++ splitOnNl b) := by
        rw [ih, hcs, List.cons_append]
      rw [List.cons_append, splitOnNl_cons_of_ne hc hih,
        splitOnNl_cons_of_ne hc hcs, List.cons_append]

theorem splitOnNl_no_nl {s : Str} (h : '\n' ∉ s) : splitOnNl s = [s] := by
  induction s with
  | nil => rfl
  | cons c t ih =>
    have hc : ¬ c = '\n' := fun hh => h (hh ▸ List.mem_cons_self c t)
    have ht : splitOnNl t = [t] := ih (fun hm => h (List.mem_cons_of_mem c hm))
    exact splitOnNl_cons_of_ne hc ht

theorem mem_splitOnNl {s l : Str} (hl : l ∈ splitOnNl s) : ∀ c ∈ l, c ∈ s := by
  induction s generalizing l with
  | nil =>
    intro c hc
    rw [show splitOnNl [] = [[]] from rfl] at hl
    rcases List.mem_singleton.mp hl with rfl
    exact absurd hc (List.not_mem_nil c)
  | cons d t ih =>
    intro c hc
    by_cases hd : d = '\n'
    · subst hd
      rw [splitOnNl_cons_nl] at hl
      rcases List.mem_cons.mp hl with rfl | hl'
      · exact absurd hc (List.not_mem_nil c)
      · exact List.mem_cons_of_mem _ (ih hl' c hc)
    · obtain ⟨h0, r0, ht⟩ := List.exists_cons_of_ne_nil (splitOnNl_ne_nil t)
      rw [splitOnNl_cons_of_ne hd ht] at hl
      rcases List.mem_cons.mp hl with rfl | hl'
      · rcases List.mem_cons.mp hc with rfl | hc'
        · exact List.mem_cons_self c t
        · refine List.mem_cons_of_mem _ (ih ?_ c hc')
          rw [ht]; exact List.mem_cons_self h0 r0
      · refine List.mem_cons_of_mem _ (ih ?_ c hc)
        rw [ht]; exact List.mem_cons_of_mem h0 hl'

theorem splitOnNl_head_takeWhile {t : Str} {h0 : Str} {r : List Str}
    (ht : splitOnNl t = h0 :: r) : h0 = t.takeWhile (fun c => decide (c ≠ '\n')) := by
  induction t generalizing h0 r with
  | nil =>
    rw [show splitOnNl [] = [[]] from rfl] at ht
    injection ht with h1 h2
    rw [← h1]; rfl
  | cons c ts ih =>
    by_cases hc : c = '\n'
    · subst hc
      rw [splitOnNl_cons_nl] at ht
      injection ht with h1 h2
      rw [← h1, List.takeWhile_cons]
      simp
    · obtain ⟨g0, s0, hts⟩ := List.exists_cons_of_ne_nil (splitOnNl_ne_nil ts)
      rw [splitOnNl_cons_of_ne hc hts] at ht
      injection ht with h1 h2
      have hstep : (c :: ts).takeWhile (fun x => decide (x ≠ '\n')) =
          c :: ts.takeWhile (fun x => decide (x ≠ '\n')) := by
        simp [List.takeWhile_cons, hc]
      rw [← h1, hstep, ih hts]

theorem getLast?_mem {l : Str} {c : Char} (h : l.getLast? = some c) : c ∈ l := by
  have := List.dropLast_append_getLast? c h
  rw [← this]
  exact List.mem_append_right _ (List.mem_singleton.mpr rfl)

theorem stripCR_no_cr {l : Str} (h : '\r' ∉ l) : stripCR l = l := by
  unfold stripCR
  rw [if_neg]
  intro hlast
  exact h (getLast?_mem hlast)

theorem stripCR_append (a : Str) {z : Str} (h : z ≠ []) :
    stripCR (a ++ z) = a ++ stripCR z := by
  unfold stripCR
  rw [List.getLast?_append_of_ne_nil a h]
  by_cases hl : z.getLast? = some '\r'
  · rw [if_pos hl, if_pos hl, List.dropLast_append_of_ne_nil a h]
  · rw [if_neg hl, if_neg hl]

theorem begins_stripCR {pre l : Str} (hpre : pre.getLast? ≠ some '\r')
    (h : begins pre l = true) : begins pre (stripCR l) = true := by
  obtain ⟨t, rfl⟩ := begins_iff.mp h
  cases ht : t with
  | nil =>
    rw [List.append_nil]
    unfold stripCR
    rw [if_neg hpre]
    exact begins_refl pre
  | cons a b =>
    rw [stripCR_append pre (by simp)]
    exact begins_append_self pre _

theorem begins_takeWhile {p : Str} (hnl : '\n' ∉ p) (s : Str) :
    begins p (s.takeWhile (fun c => decide (c ≠ '\n'))) = begins p s := by
  induction p generalizing s with
  | nil => rfl
  | cons a ps ih =>
    have ha : a ≠ '\n' := fun h => hnl (h ▸ List.mem_cons_self a ps)
    cases s with
    | nil => rfl
    | cons c cs =>
      by_cases hc : c = '\n'
      · subst hc
        rw [show List.takeWhile (fun c => decide (c ≠ '\n')) ('\n' :: cs) = []
          by simp [List.takeWhile_cons]]
        show false = begins (a :: ps) ('\n' :: cs)
        show false = (decide (a = '\n') && begins ps cs)
        simp [ha]
      · rw [show List.takeWhile (fun c => decide (c ≠ '\n')) (c :: cs) =
          c :: List.takeWhile (fun c => decide (c ≠ '\n')) cs
          by simp [List.takeWhile_cons, hc]]
        show (decide (a = c) && begins ps (List.takeWhile _ cs)) =
          (decide (a = c) && begins ps cs)
        rw [ih (fun h => hnl (List.mem_cons_of_mem a h))]

theorem rustLines_nil : rustLines [] = [] := rfl

theorem rustLines_single {s h0 : Str} (hsp : splitOnNl s = [h0]) (h0ne : h0 ≠ []) :
    rustLines s = [h0] := by
  unfold rustLines
  rw [hsp]
  cases h0 with
  | nil => exact absurd rfl h0ne
  | cons c cs => rfl

theorem rustLines_cons₂ {s : Str} {h0 r1 : Str} {rs : List Str}
    (hsp : splitOnNl s = h0 :: r1 :: rs) :
    ∃ y, rustLines s = stripCR h0 :: y := by
  unfold rustLines
  rw [hsp, List.dropLast_cons₂, List.map_cons, List.getLast?_cons_cons,
    List.cons_append]
  exact ⟨_, rfl⟩

theorem rustLines_append_nl (a b : Str) :
    rustLines (a ++ '\n' :: b) = (splitOnNl a).map stripCR ++ rustLines b := by
  unfold rustLines
  rw [splitOnNl_append_nl]
  have hb := splitOnNl_ne_nil b
  rw [List.dropLast_append_of_ne_nil (splitOnNl a) hb,
    List.getLast?_append_of_ne_nil (splitOnNl a) hb,
    List.map_append, List.append_assoc]

theorem d3_eq : d3 = ['-', '-', '-'] := rfl

theorem nl3_eq : nl3 = ['\n', '-', '-', '-'] := rfl

theorem pat13_eq :
    pat13 = ['\n', '#', '#', ' ', 'C', 'o', 'm', 'm', 'e', 'n', 't', 's', '\n'] := rfl

theorem headNl_eq :
    headNl = ['#', '#', ' ', 'C', 'o', 'm', 'm', 'e', 'n', 't', 's', '\n'] := rfl

theorem markerPre_eq : markerPre = ['#', '#', '#', ' ', '['] := rfl

theorem hh2_eq : hh2 = ['#', '#', ' '] := rfl

theorem sep3_eq : sep3 = [' ', '-', ' '] := rfl

theorem begins_hh2_not_marker {l : Str} (h : begins hh2 l = true) :
    begins markerPre l = false := by
  obtain ⟨t, rfl⟩ := begins_iff.mp h
  rw [hh2_eq]
  show begins markerPre ('#' :: '#' :: ' ' :: t) = false
  rw [markerPre_eq]
  show (decide ('#' = '#') && (decide ('#' = '#') && (decide ('#' = ' ') &&
    begins [' ', '['] t))) = false
  simp

theorem rustLines_begins {pre s : Str} (hs : s ≠ []) (hnl : '\n' ∉ pre)
    (hcr : pre.getLast? ≠ some '\r') (hb : begins pre s = true) :
    ∃ x y, rustLines s = x :: y ∧ begins pre x = true := by
  obtain ⟨h0, r, hsp⟩ := List.exists_cons_of_ne_nil (splitOnNl_ne_nil s)
  have hh0 : h0 = s.takeWhile (fun c => decide (c ≠ '\n')) :=
    splitOnNl_head_takeWhile hsp
  have hbh0 : begins pre h0 = true := by
    rw [hh0, begins_takeWhile hnl]
    exact hb
  cases r with
  | nil =>
    have hs0 : h0 = s := by
      have hj := joinNl_splitOnNl s
      rw [hsp] at hj
      exact hj
    exact ⟨h0, [], rustLines_single hsp (hs0 ▸ hs), hbh0⟩
  | cons r1 rs =>
    obtain ⟨y, hy⟩ := rustLines_cons₂ hsp
    exact ⟨stripCR h0, y, hy, begins_stripCR hcr hbh0⟩

theorem joinNl_append_empty {acc : List Str} (h : acc ≠ []) :
    joinNl (acc ++ [[]]) = joinNl acc ++ ['\n'] := by
  induction acc with
  | nil => exact absurd rfl h
  | cons l ls ih =>
    cases ls with
    | nil => rfl
    | cons x xs =>
      show l ++ '\n' :: joinNl ((x :: xs) ++ [[]]) =
        (l ++ '\n' :: joinNl (x :: xs)) ++ ['\n']
      rw [ih (by simp)]
      simp

theorem trim_joinNl_snoc_empty (acc : List Str) :
    trim (joinNl (acc ++ [[]])) = trim (joinNl acc) := by
  cases acc with
  | nil => rfl
  | cons l ls =>
    rw [joinNl_append_empty (by simp)]
    exact trim_append_ws _ (by decide)

theorem scan_cons (l : Str) (ls : List Str) (cur : Option (Str × Str))
    (acc : List Str) :
    scan (l :: ls) cur acc =
      if begins markerPre l then
        match cur with
        | some p => (p.1, p.2, trim (joinNl acc)) :: scan ls (parseMarker l) []
        | none => scan ls (parseMarker l) acc
      else if begins hh2 l then
        match cur with
        | some p => [(p.1, p.2, trim (joinNl acc))]
        | none => []
      else
        match cur with
        | some p => scan ls (some p) (acc ++ [l])
        | none => scan ls none acc := rfl

theorem scan_stop {x x' : Str} (hx : begins hh2 x = true)
    (hx' : begins hh2 x' = true) (LM : List Str) (y y' : List Str)
    (cur : Option (Str × Str)) (acc : List Str) :
    scan (LM ++ x :: y) cur acc = scan (LM ++ x' :: y') cur acc := by
  induction LM generalizing cur acc with
  | nil =>
    rw [List.nil_append, List.nil_append, scan_cons, scan_cons,
      if_neg (ne_true_of_eq_false (begins_hh2_not_marker hx)),
      if_neg (ne_true_of_eq_false (begins_hh2_not_marker hx')),
      if_pos hx, if_pos hx']
  | cons l LM ih =>
    rw [List.cons_append, List.cons_append, scan_cons, scan_cons]
    by_cases hm : begins markerPre l = true
    · rw [if_pos hm, if_pos hm]
      cases cur <;> simp only [ih]
    · rw [if_neg hm, if_neg hm]
      by_cases hh : begins hh2 l = true
      · rw [if_pos hh, if_pos hh]
      · rw [if_neg hh, if_neg hh]
        cases cur <;> simp only [ih]

theorem scan_junk {J : List Str}
    (hJ : ∀ l ∈ J, begins markerPre l = false ∧ begins hh2 l = false)
    (L : List Str) (acc : List Str) :
    scan (J ++ L) none acc = scan L none acc := by
  induction J with
  | nil => rfl
  | cons l J' ih =>
    obtain ⟨hm, hh⟩ := hJ l (List.mem_cons_self l J')
    rw [List.cons_append, scan_cons, if_neg (ne_true_of_eq_false hm),
      if_neg (ne_true_of_eq_false hh)]
    exact ih (fun z hz => hJ z (List.mem_cons_of_mem l hz))

theorem scan_acc {ls : List Str}
    (hls : ∀ l ∈ ls, begins markerPre l = false ∧ begins hh2 l = false)
    (L : List Str) (p : Str × Str) (acc : List Str) :
    scan (ls ++ L) (some p) acc = scan L (some p) (acc ++ ls) := by
  induction ls generalizing acc with
  | nil => rw [List.nil_append, List.append_nil]
  | cons l ls' ih =>
    obtain ⟨hm, hh⟩ := hls l (List.mem_cons_self l ls')
    rw [List.cons_append, scan_cons, if_neg (ne_true_of_eq_false hm),
      if_neg (ne_true_of_eq_false hh)]
    show scan (ls' ++ L) (some p) (acc ++ [l]) = scan L (some p) (acc ++ l :: ls')
    rw [ih (fun z hz => hls z (List.mem_cons_of_mem l hz)) (acc ++ [l]),
      List.append_assoc]
    rfl

/-! ## Frontmatter: closing-delimiter search -/

theorem findSub_nl3_none_of_lines {h : Str}
    (hl : ∀ l ∈ (splitOnNl h).tail, begins d3 l = false) :
    findSub nl3 h = none := by
  induction h with
  | nil => decide
  | cons c t ih =>
    obtain ⟨h0, r, hsp⟩ := List.exists_cons_of_ne_nil (splitOnNl_ne_nil t)
    by_cases hc : c = '\n'
    · subst hc
      rw [splitOnNl_cons_nl, List.tail_cons] at hl
      rw [findSub_cons]
      have hb : begins nl3 ('\n' :: t) = false := by
        show (decide ('\n' = '\n') && begins d3 t) = false
        have hline : begins d3 h0 = false := hl h0 (by
          rw [hsp]; exact List.mem_cons_self h0 r)
        rw [splitOnNl_head_takeWhile hsp, begins_takeWhile (by decide) t] at hline
        simp [hline]
      rw [if_neg (ne_true_of_eq_false hb)]
      have ht : findSub nl3 t = none :=
        ih (fun l hml => hl l (List.mem_of_mem_tail hml))
      rw [ht]; rfl
    · rw [splitOnNl_cons_of_ne hc hsp, List.tail_cons] at hl
      rw [findSub_cons]
      have hb : begins nl3 (c :: t) = false := by
        show (decide ('\n' = c) && begins d3 t) = false
        rw [decide_eq_false (Ne.symm hc)]
        rfl
      rw [if_neg (ne_true_of_eq_false hb)]
      have ht : findSub nl3 t = none := by
        refine ih fun l hml => hl l ?_
        rw [hsp, List.tail_cons] at hml
        exact hml
      rw [ht]; rfl

theorem findSub_nl3_glue (h t : Str) (hnone : findSub nl3 h = none) :
    findSub nl3 (h ++ (nl3 ++ t)) = some h.length := by
  refine findSub_glue t hnone ?_
  intro m h1 hm hAB
  obtain ⟨-, hbeg⟩ := hAB
  rw [nl3_eq] at hm
  simp only [List.length_cons, List.length_nil] at hm
  interval_cases m
  · rw [show nl3.drop 1 = ['-', '-', '-'] from rfl] at hbeg
    rw [show nl3 ++ t = '\n' :: ('-' :: '-' :: '-' :: t) from rfl] at hbeg
    exact absurd hbeg (by simp [begins])
  · rw [show nl3.drop 2 = ['-', '-'] from rfl] at hbeg
    rw [show nl3 ++ t = '\n' :: ('-' :: '-' :: '-' :: t) from rfl] at hbeg
    exact absurd hbeg (by simp [begins])
  · rw [show nl3.drop 3 = ['-'] from rfl] at hbeg
    rw [show nl3 ++ t = '\n' :: ('-' :: '-' :: '-' :: t) from rfl] at hbeg
    exact absurd hbeg (by simp [begins])

/-- Claim C6: frontmatter decoding fails closed.  Input whose trimmed text
does not begin with the three-hyphen delimiter fails with
`missingDelimiter`; input that begins with the delimiter but in which no
later line starts with the delimiter (so there is no closing delimiter
line) fails with `unterminatedHeader`.  In neither case is a result
returned. -/
theorem claim_C6 :
    (∀ (H : Type) (de : Str → Except Unit H) (c : Str),
      begins d3 (trim c) = false →
      parse_frontmatter de c = Except.error FormatError.missingDelimiter) ∧
    (∀ (H : Type) (de : Str → Except Unit H) (c : Str),
      begins d3 (trim c) = true →
      (∀ l ∈ (splitOnNl ((trim c).drop 3)).tail, begins d3 l = false) →
      parse_frontmatter de c = Except.error FormatError.unterminatedHeader) := by
  constructor
  · intro H de c hd
    simp only [parse_frontmatter]
    rw [if_neg (ne_true_of_eq_false hd)]
  · intro H de c hd hl
    simp only [parse_frontmatter]
    rw [if_pos hd, findSub_nl3_none_of_lines hl]

/-- Witness for C6, at the spec's own examples. -/
theorem claim_C6_witness :
    parse_frontmatter (fun _ => Except.ok ()) (S ("no dashes at all")) =
      Except.error FormatError.missingDelimiter ∧
    parse_frontmatter (fun _ => Except.ok ()) (S ("---\nkey: 1\n")) =
      Except.error FormatError.unterminatedHeader :=
  ⟨claim_C6.1 Unit (fun _ => Except.ok ()) (S ("no dashes at all")) (by decide),
   claim_C6.2 Unit (fun _ => Except.ok ()) (S ("---\nkey: 1\n")) (by decide)
     (by decide)⟩

/-- Claim C4 counterexample: in `"---\na: 1\n---x\nbody"` no line after the
opening equals the three-hyphen delimiter, yet decoding succeeds — the
header ends at the line `---x`, which merely begins with three hyphens,
and the remainder `x` of that line leaks into the body.  This refutes the
claim that the closing delimiter must be a line equal to `---`. -/
theorem claim_C4_counterexample :
    parse_frontmatter (fun s => Except.ok s) (S ("---\na: 1\n---x\nbody")) =
      Except.ok (S ("\na: 1"), S ("x\nbody")) ∧
    ∀ l ∈ (splitOnNl (trim (S ("---\na: 1\n---x\nbody")))).tail, l ≠ d3 := by
  constructor
  · decide
  · decide

/-- Frontmatter decode on a content whose post-delimiter text splits as
`h ++ "\n---" ++ t` with no earlier `"\n---"` occurrence in `h`: the
header block is `h` and the body is `t` trimmed. -/
theorem parse_split_at {H : Type} (de : Str → Except Unit H) (c : Str)
    (hd : begins d3 (trim c) = true)
    {h t : Str} (hsplit : (trim c).drop 3 = h ++ (nl3 ++ t))
    (hnone : findSub nl3 h = none)
    {v : H} (hde : de h = Except.ok v) :
    parse_frontmatter de c = Except.ok (v, trim t) := by
  simp only [parse_frontmatter]
  rw [if_pos hd, hsplit, findSub_nl3_glue h t hnone]
  show (match de ((h ++ (nl3 ++ t)).take h.length) with
    | .ok hh => Except.ok (hh, trim ((h ++ (nl3 ++ t)).drop (h.length + 4)))
    | .error _ => Except.error FormatError.headerDecodeError) =
    Except.ok (v, trim t)
  rw [List.take_left, hde]
  rw [show (h ++ (nl3 ++ t)).drop (h.length + 4) = t by
    rw [← List.append_assoc]
    exact List.drop_left' (by simp [nl3_eq])]

/-- Claim C4 (amended): the header block is the text strictly between the
opening delimiter and the first subsequent occurrence of a newline
followed by three hyphens — i.e. the next line that begins (not
necessarily equals) `---`; the body is everything after those three
hyphens, the remainder of that line included, trimmed. -/
theorem claim_C4_amended {H : Type} (de : Str → Except Unit H) (c : Str)
    (hd : begins d3 (trim c) = true)
    {h t : Str} (hsplit : (trim c).drop 3 = h ++ (nl3 ++ t))
    (hfirst : ∀ l ∈ (splitOnNl h).tail, begins d3 l = false)
    {v : H} (hde : de h = Except.ok v) :
    parse_frontmatter de c = Except.ok (v, trim t) :=
  parse_split_at de c hd hsplit (findSub_nl3_none_of_lines hfirst) hde

/-- Witness for the amended C4: a closing line `---x` that begins with the
delimiter but does not equal it still closes the header. -/
theorem claim_C4_amended_witness :
    parse_frontmatter (fun s => Except.ok s) (S ("---\na: 1\n---x\nbody")) =
      Except.ok (S ("\na: 1"), trim (S ("x\nbody"))) :=
  claim_C4_amended (fun s => Except.ok s) (S ("---\na: 1\n---x\nbody"))
    (by decide) (by decide) (by decide) rfl

/-! ## Comment-log codec: the removal phase of `write_comments` -/

theorem findSub_bound {pat b : Str} {p : Nat} (hne : pat ≠ [])
    (hf : findSub pat b = some p) : p + pat.length ≤ b.length := by
  rcases findSub_some_iff.mp hf with ⟨h1, -⟩
  obtain ⟨t, ht⟩ := begins_iff.mp h1
  have hlp : 1 ≤ pat.length := by
    cases pat with
    | nil => exact absurd rfl hne
    | cons c cs => simp
  have := congrArg List.length ht
  simp only [List.length_drop, List.length_append] at this
  omega

theorem findSub_decomp {pat b : Str} {p : Nat} (hf : findSub pat b = some p) :
    ∃ w, b = b.take p ++ (pat ++ w) := by
  rcases findSub_some_iff.mp hf with ⟨h1, -⟩
  obtain ⟨t, ht⟩ := begins_iff.mp h1
  exact ⟨t, by conv_lhs => rw [← List.take_append_drop p b]; rw [ht]⟩

theorem findSub_take_none {pat b : Str} {p : Nat} (hne : pat ≠ [])
    (hf : findSub pat b = some p) : findSub pat (b.take p) = none := by
  rcases findSub_some_iff.mp hf with ⟨-, hm⟩
  refine findSub_none_iff.mpr fun m => ?_
  refine not_begins fun htrue => ?_
  by_cases hmp : m < p
  · rw [List.drop_take] at htrue
    have hx := begins_of_take htrue
    rw [hm m hmp] at hx
    exact Bool.noConfusion hx
  · have hlen : (b.take p).length ≤ m :=
      le_trans (by rw [List.length_take]; exact min_le_left _ _)
        (Nat.le_of_not_lt hmp)
    rw [List.drop_eq_nil_of_le hlen] at htrue
    cases pat with
    | nil => exact absurd rfl hne
    | cons c cs => exact Bool.noConfusion htrue

theorem bodyWithout_some {b : Str} {p : Nat} (hf : findSub pat13 b = some p) :
    bodyWithout b = trimEnd (b.take p) := by
  unfold bodyWithout
  rw [hf]

theorem bodyWithout_none_head {b : Str} (hf : findSub pat13 b = none)
    (hh : begins headNl b = true) : bodyWithout b = [] := by
  unfold bodyWithout
  rw [hf]
  show (if begins headNl b then [] else trimEnd b) = []
  rw [if_pos hh]

theorem bodyWithout_plain {b : Str} (hf : findSub pat13 b = none)
    (hh : begins headNl b = false) : bodyWithout b = trimEnd b := by
  unfold bodyWithout
  rw [hf]
  show (if begins headNl b then [] else trimEnd b) = trimEnd b
  rw [if_neg (ne_true_of_eq_false hh)]

theorem bodyWithout_no_pat (b : Str) : findSub pat13 (bodyWithout b) = none := by
  cases hf : findSub pat13 b with
  | some p =>
    rw [bodyWithout_some hf]
    exact findSub_trimEnd_none (findSub_take_none (by decide) hf)
  | none =>
    by_cases hh : begins headNl b = true
    · rw [bodyWithout_none_head hf hh]; decide
    · rw [bodyWithout_plain hf (not_begins hh)]
      exact findSub_trimEnd_none hf

/-- Claim C1 counterexample: the body has a section `## Z` after the
comments section; the claim says text outside the comments subsection is
preserved, but `write_comments` drops everything from the heading to the
end of the body, so `keep` is lost. -/
theorem claim_C1_counterexample :
    hasSub (S ("keep"))
      (S ("A\n## Comments\n\n### [t] - x\nc\n\n## Z\nkeep")) = true ∧
    hasSub (S ("keep"))
      (write_comments (S ("A\n## Comments\n\n### [t] - x\nc\n\n## Z\nkeep"))
        [⟨S ("1"), S ("N"), S ("t2"), S ("new")⟩]) = false := by
  constructor
  · decide
  · decide

/-- Claim C1 (amended): when the body contains the `## Comments` heading,
`write_comments` removes everything from the heading line to the end of
the body, not just the comments subsection.  The text before the heading
is preserved (trailing-whitespace-trimmed) as a prefix of the result, and
the result does not depend on anything after the heading — in particular
later sections are not preserved. -/
theorem claim_C1_amended (b : Str) (C : List Comment) {pos : Nat}
    (hf : findSub pat13 b = some pos) :
    begins (trimEnd (b.take pos)) (write_comments b C) = true ∧
    ∀ s, write_comments (b.take pos ++ (pat13 ++ s)) C = write_comments b C := by
  have hbw : bodyWithout b = trimEnd (b.take pos) := bodyWithout_some hf
  have hlen : (b.take pos).length = pos := by
    rw [List.length_take]
    have := findSub_bound (by decide) hf
    exact Nat.min_eq_left (by omega)
  constructor
  · unfold write_comments
    rw [hbw]
    by_cases hC : C = []
    · rw [if_pos hC]
      exact begins_refl _
    · rw [if_neg hC]
      exact begins_append_right _ (begins_append_right _ (begins_refl _))
  · intro s
    obtain ⟨w, hw⟩ := findSub_decomp hf
    have hf' : findSub pat13 (b.take pos ++ (pat13 ++ w)) = some pos := by
      rw [← hw]; exact hf
    have hf2 : findSub pat13 (b.take pos ++ (pat13 ++ w)) =
        some (b.take pos).length := by
      rw [hlen]; exact hf'
    have hfs' := findSub_at_append s hf2
    have hfs : findSub pat13 (b.take pos ++ (pat13 ++ s)) = some pos := by
      rw [hlen] at hfs'; exact hfs'
    have hbw2 : bodyWithout (b.take pos ++ (pat13 ++ s)) = trimEnd (b.take pos) := by
      rw [bodyWithout_some hfs, List.take_left' hlen]
    unfold write_comments
    rw [hbw, hbw2]

/-- Claim C5 counterexample: for a body with leading whitespace and an
existing comments section, `write_comments b []` is neither `b` trimmed
(leading whitespace survives, and the old section prefix is cut at the
heading) nor equal to `trim b`. -/
theorem claim_C5_counterexample :
    write_comments (S (" A\n## Comments\nold")) [] ≠
      trim (S (" A\n## Comments\nold")) := by
  decide

/-- Claim C5 (amended): `write_comments b []` never contains the
newline-preceded `## Comments` heading pattern; when `b` has no comments
section (no `"\n## Comments\n"` occurrence and no `"## Comments\n"`
prefix) it returns `b` trimmed of trailing whitespace only; and when the
heading occurs at position `pos` it returns the text before the heading,
trailing-trimmed. -/
theorem claim_C5_amended (b : Str) :
    hasSub pat13 (write_comments b []) = false ∧
    (findSub pat13 b = none → begins headNl b = false →
      write_comments b [] = trimEnd b) ∧
    (∀ pos, findSub pat13 b = some pos →
      write_comments b [] = trimEnd (b.take pos)) := by
  have hwe : write_comments b [] = bodyWithout b := rfl
  refine ⟨?_, ?_, ?_⟩
  · rw [hwe]
    unfold hasSub
    rw [bodyWithout_no_pat b]
    rfl
  · intro hf hh
    rw [hwe, bodyWithout_plain hf hh]
  · intro pos hf
    rw [hwe, bodyWithout_some hf]

/-- Witness for the amended C5 at concrete inputs. -/
theorem claim_C5_amended_witness :
    write_comments (S ("x ")) [] = trimEnd (S ("x ")) ∧
    write_comments (S ("A\n## Comments\nold")) [] =
      trimEnd ((S ("A\n## Comments\nold")).take 1) :=
  ⟨(claim_C5_amended (S ("x "))).2.1 (by decide) (by decide),
   (claim_C5_amended (S ("A\n## Comments\nold"))).2.2 1 (by decide)⟩

/-- Claim C8: when the heading occurs nowhere preceded by a newline
(no decomposition `body = u ++ "\n## Comments\n" ++ v` exists) and the
body does not start with `"## Comments\n"`, `read_comments` returns the
empty list without error. -/
theorem claim_C8 (ids : Nat → Str) (body : Str)
    (h1 : ∀ u v : Str, body ≠ u ++ (pat13 ++ v))
    (h2 : begins headNl body = false) :
    read_comments ids body = [] := by
  have hf : findSub pat13 body = none := by
    refine findSub_none_iff.mpr fun m => ?_
    refine not_begins fun htrue => ?_
    obtain ⟨t, ht⟩ := begins_iff.mp htrue
    exact h1 (body.take m) t (by
      conv_lhs => rw [← List.take_append_drop m body]
      rw [ht])
  unfold read_comments
  rw [hf]
  show (if begins headNl body then
    withIdsFrom ids 0 (scan (rustLines (body.drop 12)) none []) else []) = []
  rw [if_neg (ne_true_of_eq_false h2)]

/-- Witness for C8 at the spec's example body. -/
theorem claim_C8_witness :
    read_comments (fun _ => []) (S ("no comments here")) = [] := by
  refine claim_C8 (fun _ => []) (S ("no comments here")) ?_ (by decide)
  intro u v huv
  have hnone : findSub pat13 (S ("no comments here")) = none := by decide
  have hall := findSub_none_iff.mp hnone u.length
  rw [huv, List.drop_left] at hall
  rw [begins_append_self pat13 v] at hall
  exact Bool.noConfusion hall

/-- Witness for the amended C1 at a concrete body. -/
theorem claim_C1_amended_witness :
    begins (trimEnd ((S ("A\n## Comments\nold")).take 1))
      (write_comments (S ("A\n## Comments\nold")) []) = true ∧
    write_comments ((S ("A\n## Comments\nold")).take 1 ++ (pat13 ++ S ("junk")))
      [] = write_comments (S ("A\n## Comments\nold")) [] := by
  have h := claim_C1_amended (S ("A\n## Comments\nold")) []
    (show findSub pat13 (S ("A\n## Comments\nold")) = some 1 by decide)
  exact ⟨h.1, h.2 (S ("junk"))⟩

/-! ## Reading comments: section location and boundaries -/

theorem read_at (ids : Nat → Str) {body : Str} {p : Nat}
    (hf : findSub pat13 body = some p) :
    read_comments ids body =
      withIdsFrom ids 0 (scan (rustLines (body.drop (p + 13))) none []) := by
  unfold read_comments
  rw [hf]

theorem section_drop (A X : Str) :
    (A ++ (pat13 ++ X)).drop (A.length + 13) = X := by
  rw [← List.append_assoc]
  exact List.drop_left' (by simp [pat13_eq])

/-- Claim C7: when the comments section is followed by another `## `
heading, `read_comments` stops scanning there: the result does not depend
on anything on or after that heading line (here `R` versus the empty
remainder), so no text of the later section enters any comment. -/
theorem claim_C7 (ids : Nat → Str) (A M R : Str)
    (hf : findSub pat13
      (A ++ (pat13 ++ (M ++ ('\n' :: '#' :: '#' :: ' ' :: R)))) =
      some A.length) :
    read_comments ids (A ++ (pat13 ++ (M ++ ('\n' :: '#' :: '#' :: ' ' :: R)))) =
    read_comments ids (A ++ (pat13 ++ (M ++ ['\n', '#', '#', ' ']))) := by
  have hf2 : findSub pat13 (A ++ (pat13 ++ (M ++ ['\n', '#', '#', ' ']))) =
      some A.length := findSub_at_append _ hf
  rw [read_at ids hf, read_at ids hf2, section_drop, section_drop]
  congr 1
  rw [show M ++ ('\n' :: '#' :: '#' :: ' ' :: R) =
    M ++ '\n' :: ('#' :: '#' :: ' ' :: R) from rfl]
  rw [show M ++ ['\n', '#', '#', ' '] =
    M ++ '\n' :: ('#' :: '#' :: ' ' :: ([] : Str)) from rfl]
  rw [rustLines_append_nl, rustLines_append_nl]
  obtain ⟨x, y, hxy, hx⟩ := @rustLines_begins hh2
    ('#' :: '#' :: ' ' :: R) (by simp) (by decide) (by decide)
    (by
      rw [show ('#' :: '#' :: ' ' :: R : Str) = hh2 ++ R from rfl]
      exact begins_append_self hh2 R)
  rw [hxy]
  rw [show rustLines ('#' :: '#' :: ' ' :: ([] : Str)) =
    ['#' :: '#' :: ' ' :: ([] : Str)] from by decide]
  exact scan_stop hx (by decide) _ _ _ none []

/-- Witness for C7 at a concrete body with an `## Other` section after the
comments. -/
theorem claim_C7_witness :
    read_comments (fun _ => []) (S ("A") ++ (pat13 ++
      (S ("\n### [t] - a\nhi\n") ++ ('\n' :: '#' :: '#' :: ' ' :: S ("Other"))))) =
    read_comments (fun _ => []) (S ("A") ++ (pat13 ++
      (S ("\n### [t] - a\nhi\n") ++ ['\n', '#', '#', ' ']))) :=
  claim_C7 (fun _ => []) (S ("A")) (S ("\n### [t] - a\nhi\n")) (S ("Other"))
    (by decide)

theorem findSub_singleton_none {c : Char} {s : Str} (h : c ∉ s) :
    findSub [c] s = none := by
  refine findSub_none_iff.mpr fun m => not_begins fun htrue => ?_
  obtain ⟨t, ht⟩ := begins_iff.mp htrue
  refine h (List.mem_of_mem_drop (n := m) ?_)
  rw [ht]
  exact List.mem_cons_self c t

theorem mem_stripCR {c : Char} {l : Str} (h : c ∈ stripCR l) : c ∈ l := by
  unfold stripCR at h
  by_cases hl : l.getLast? = some '\r'
  · rw [if_pos hl] at h
    exact List.dropLast_subset l h
  · rwa [if_neg hl] at h

/-- Claim C10: lines between the `## Comments` heading and the first entry
marker are silently discarded (first conjunct), and a `### [` line with no
closing bracket starts no entry — it and the lines under it leave the
result unchanged (second conjunct). -/
theorem claim_C10 :
    (∀ (ids : Nat → Str) (A J rest : Str),
      findSub pat13 (A ++ (pat13 ++ (J ++ '\n' :: rest))) = some A.length →
      (∀ l ∈ (splitOnNl J).map stripCR,
        begins markerPre l = false ∧ begins hh2 l = false) →
      read_comments ids (A ++ (pat13 ++ (J ++ '\n' :: rest))) =
        read_comments ids (A ++ (pat13 ++ rest))) ∧
    (∀ (ids : Nat → Str) (A B rest : Str),
      findSub pat13 (A ++ (pat13 ++ (B ++ '\n' :: rest))) = some A.length →
      begins markerPre B = true → ']' ∉ B → '\n' ∉ B →
      read_comments ids (A ++ (pat13 ++ (B ++ '\n' :: rest))) =
        read_comments ids (A ++ (pat13 ++ rest))) := by
  constructor
  · intro ids A J rest hf hJ
    have hf2 : findSub pat13 (A ++ (pat13 ++ rest)) = some A.length :=
      findSub_at_append _ hf
    rw [read_at ids hf, read_at ids hf2, section_drop, section_drop]
    congr 1
    rw [rustLines_append_nl J rest]
    exact scan_junk hJ _ []
  · intro ids A B rest hf hmB hbr hnl
    have hf2 : findSub pat13 (A ++ (pat13 ++ rest)) = some A.length :=
      findSub_at_append _ hf
    rw [read_at ids hf, read_at ids hf2, section_drop, section_drop]
    congr 1
    rw [rustLines_append_nl B rest, splitOnNl_no_nl hnl]
    show scan (stripCR B :: rustLines rest) none [] =
      scan (rustLines rest) none []
    rw [scan_cons,
      if_pos (begins_stripCR (by decide) hmB)]
    show scan (rustLines rest) (parseMarker (stripCR B)) [] =
      scan (rustLines rest) none []
    rw [show parseMarker (stripCR B) = none from by
      unfold parseMarker
      rw [findSub_singleton_none (fun hc => hbr (mem_stripCR hc))]]

/-- Witness for C10: a junk line before the first marker, and a bracketless
marker line, each leave the parse result unchanged. -/
theorem claim_C10_witness :
    read_comments (fun _ => []) (S ("A") ++ (pat13 ++
      (S ("junk") ++ '\n' :: S ("### [t] - a\nhi\n")))) =
      read_comments (fun _ => []) (S ("A") ++ (pat13 ++ S ("### [t] - a\nhi\n"))) ∧
    read_comments (fun _ => []) (S ("A") ++ (pat13 ++
      (S ("### [no bracket") ++ '\n' :: S ("under\n### [t] - a\nok\n")))) =
      read_comments (fun _ => [])
        (S ("A") ++ (pat13 ++ S ("under\n### [t] - a\nok\n"))) :=
  ⟨claim_C10.1 (fun _ => []) (S ("A")) (S ("junk")) (S ("### [t] - a\nhi\n"))
      (by decide) (by decide),
   claim_C10.2 (fun _ => []) (S ("A")) (S ("### [no bracket"))
      (S ("under\n### [t] - a\nok\n")) (by decide) (by decide) (by decide)
      (by decide)⟩

/-! ## Identifier handling -/

theorem renderEntries_congr {C C' : List Comment}
    (h : C.map (fun c => (c.author, c.timestamp, c.content)) =
      C'.map (fun c => (c.author, c.timestamp, c.content))) :
    renderEntries C = renderEntries C' := by
  induction C generalizing C' with
  | nil =>
    cases C' with
    | nil => rfl
    | cons c' cs' => simp at h
  | cons c cs ih =>
    cases C' with
    | nil => simp at h
    | cons c' cs' =>
      simp only [List.map_cons, List.cons.injEq] at h
      obtain ⟨h1, h2⟩ := h
      show entryBlock c ++ renderEntries cs = entryBlock c' ++ renderEntries cs'
      rw [ih h2]
      congr 1
      have ha : c.author = c'.author := congrArg Prod.fst h1
      have ht : c.timestamp = c'.timestamp := congrArg (fun x => x.2.1) h1
      have hc : c.content = c'.content := congrArg (fun x => x.2.2) h1
      unfold entryBlock
      rw [ha, ht, hc]

theorem withIdsFrom_length (ids : Nat → Str) (i : Nat)
    (ts : List (Str × Str × Str)) : (withIdsFrom ids i ts).length = ts.length := by
  induction ts generalizing i with
  | nil => rfl
  | cons t ts' ih =>
    show (withIdsFrom ids (i + 1) ts').length + 1 = ts'.length + 1
    rw [ih]

theorem withIdsFrom_id_map (ids : Nat → Str) (i : Nat)
    (ts : List (Str × Str × Str)) :
    (withIdsFrom ids i ts).map Comment.id =
      (List.range ts.length).map (fun k => ids (i + k)) := by
  induction ts generalizing i with
  | nil => rfl
  | cons t ts' ih =>
    show ids i :: (withIdsFrom ids (i + 1) ts').map Comment.id = _
    rw [ih, List.length_cons, List.range_succ_eq_map, List.map_cons,
      List.map_map]
    have hfun : ((fun k => ids (i + k)) ∘ Nat.succ) =
        fun k => ids (i + 1 + k) := by
      funext k
      show ids (i + Nat.succ k) = ids (i + 1 + k)
      congr 1
      omega
    rw [hfun]
    congr 1

theorem withIds_id_shape (ids : Nat → Str) (ts : List (Str × Str × Str)) :
    (withIdsFrom ids 0 ts).map Comment.id =
      (List.range (withIdsFrom ids 0 ts).length).map ids := by
  rw [withIdsFrom_id_map, withIdsFrom_length]
  congr 1
  funext k
  rw [Nat.zero_add]

/-- Claim C9: the textual encoding does not persist identifiers.  First:
`write_comments` produces identical output for comment lists that agree on
(author, timestamp, content), whatever their id fields.  Second: the ids of
the entries `read_comments` returns are exactly the first n values of the
fresh-identifier supply, in order — independent of anything in the stored
text. -/
theorem claim_C9 :
    (∀ (b : Str) (C C' : List Comment),
      C.map (fun c => (c.author, c.timestamp, c.content)) =
        C'.map (fun c => (c.author, c.timestamp, c.content)) →
      write_comments b C = write_comments b C') ∧
    (∀ (ids : Nat → Str) (body : Str),
      (read_comments ids body).map Comment.id =
        (List.range (read_comments ids body).length).map ids) := by
  constructor
  · intro b C C' h
    unfold write_comments
    by_cases hC : C = []
    · have hC' : C' = [] := by
        subst hC
        cases C' with
        | nil => rfl
        | cons c' cs' => simp at h
      rw [if_pos hC, if_pos hC']
    · have hC' : ¬ C' = [] := by
        intro hc'
        subst hc'
        cases C with
        | nil => exact hC rfl
        | cons c cs => simp at h
      rw [if_neg hC, if_neg hC', renderEntries_congr h]
  · intro ids body
    unfold read_comments
    cases hf : findSub pat13 body with
    | some p => exact withIds_id_shape ids _
    | none =>
      by_cases hh : begins headNl body = true
      · rw [if_pos hh]
        exact withIds_id_shape ids _
      · rw [if_neg hh]
        rfl

/-- Witness for C9: two comment lists differing only in ids produce the
same stored text. -/
theorem claim_C9_witness :
    write_comments (S ("b")) [⟨S ("id1"), S ("a"), S ("t"), S ("x")⟩] =
    write_comments (S ("b")) [⟨S ("id2"), S ("a"), S ("t"), S ("x")⟩] :=
  claim_C9.1 (S ("b")) [⟨S ("id1"), S ("a"), S ("t"), S ("x")⟩]
    [⟨S ("id2"), S ("a"), S ("t"), S ("x")⟩] (by decide)

/-! ## Round-tripping a comment list through the textual encoding -/

/-- Well-formedness of a comment for faithful storage: the timestamp has no
newline and no closing bracket, the author has no newline and is
trim-stable, and the content has no carriage returns and no line that
looks like an entry marker or a section heading. -/
def wfComment (c : Comment) : Prop :=
  '\n' ∉ c.timestamp ∧ ']' ∉ c.timestamp ∧ '\n' ∉ c.author ∧
  trim c.author = c.author ∧ '\r' ∉ c.content ∧
  ∀ l ∈ splitOnNl c.content, begins markerPre l = false ∧ begins hh2 l = false

instance (c : Comment) : Decidable (wfComment c) := by
  unfold wfComment
  infer_instance

/-- The marker line `### [timestamp] - author` written for a comment. -/
def markerLine (c : Comment) : Str :=
  markerPre ++ c.timestamp ++ S ("] - ") ++ c.author

theorem entryBlock_eq (c : Comment) :
    entryBlock c = ('\n' :: markerLine c) ++ '\n' :: (c.content ++ ['\n']) := by
  unfold entryBlock markerLine
  simp [List.append_assoc]

theorem markerLine_eq₁ (c : Comment) :
    markerLine c = (markerPre ++ c.timestamp) ++ ']' :: (sep3 ++ c.author) := by
  unfold markerLine
  rw [show S ("] - ") = ']' :: sep3 from rfl]
  simp [List.append_assoc]

theorem nl_not_mem_markerLine {c : Comment} (h1 : '\n' ∉ c.timestamp)
    (h2 : '\n' ∉ c.author) : '\n' ∉ markerLine c := by
  unfold markerLine
  intro hm
  rcases List.mem_append.mp hm with hm' | hm'
  · rcases List.mem_append.mp hm' with hm'' | hm''
    · rcases List.mem_append.mp hm'' with hm3 | hm3
      · exact absurd hm3 (by decide)
      · exact h1 hm3
    · exact absurd hm'' (by decide)
  · exact h2 hm'

theorem markerLine_getLast_ne_cr {c : Comment} (ha : trim c.author = c.author) :
    (markerLine c).getLast? ≠ some '\r' := by
  unfold markerLine
  cases hauth : c.author with
  | nil =>
    rw [List.append_nil,
      List.getLast?_append_of_ne_nil _ (show S ("] - ") ≠ [] by decide)]
    decide
  | cons a as =>
    rw [List.getLast?_append_of_ne_nil _ (show a :: as ≠ [] by simp)]
    intro hlast
    have hws := trim_getLast_not_ws (show (trim c.author).getLast? = some '\r' by
      rw [ha, hauth]; exact hlast)
    exact absurd hws (by decide)

theorem stripCR_markerLine {c : Comment} (ha : trim c.author = c.author) :
    stripCR (markerLine c) = markerLine c := by
  unfold stripCR
  rw [if_neg (markerLine_getLast_ne_cr ha)]

theorem map_stripCR_of_no_cr {s : Str} (h : '\r' ∉ s) :
    (splitOnNl s).map stripCR = splitOnNl s := by
  have hc : ∀ l ∈ splitOnNl s, stripCR l = id l := fun l hl =>
    stripCR_no_cr fun hcr => h (mem_splitOnNl hl '\r' hcr)
  rw [List.map_congr_left hc, List.map_id]

theorem begins_some_zero {pat s : Str} (h : begins pat s = true) :
    findSub pat s = some 0 := by
  cases s with
  | nil => rw [findSub_nil, if_pos h]
  | cons c t => rw [findSub_cons, if_pos h]

theorem findSub_singleton_at {c : Char} {u : Str} (v : Str) (h : c ∉ u) :
    findSub [c] (u ++ c :: v) = some u.length := by
  induction u with
  | nil =>
    rw [List.nil_append]
    exact begins_some_zero (by simp [begins])
  | cons d u' ih =>
    have hcd : ¬ (c = d) := fun hh => h (hh ▸ List.mem_cons_self d u')
    rw [List.cons_append, findSub_cons, if_neg (by
      show ¬ (decide (c = d) && begins [] (u' ++ c :: v)) = true
      simp [hcd])]
    rw [ih (fun hm => h (List.mem_cons_of_mem d hm))]
    rfl

theorem markerLine_eq₂ (c : Comment) :
    markerLine c = ((markerPre ++ c.timestamp) ++ [']']) ++ (sep3 ++ c.author) := by
  rw [markerLine_eq₁]
  simp [List.append_assoc]

/-- Parsing the marker line written for a well-formed comment recovers its
timestamp and author. -/
theorem parse_markerLine {c : Comment} (h2 : ']' ∉ c.timestamp)
    (h4 : trim c.author = c.author) :
    parseMarker (markerLine c) = some (c.timestamp, c.author) := by
  have hmem : ']' ∉ markerPre ++ c.timestamp := by
    intro hm
    rcases List.mem_append.mp hm with hm' | hm'
    · exact absurd hm' (by decide)
    · exact h2 hm'
  have hfind : findSub [']'] (markerLine c) = some (5 + c.timestamp.length) := by
    rw [markerLine_eq₁]
    have hx := findSub_singleton_at (sep3 ++ c.author) hmem
    rwa [show (markerPre ++ c.timestamp).length = 5 + c.timestamp.length by
      simp [markerPre_eq]; omega] at hx
  unfold parseMarker
  rw [hfind]
  show some (((markerLine c).drop 5).take (5 + c.timestamp.length - 5),
    parseAuthor ((markerLine c).drop (5 + c.timestamp.length + 1))) =
    some (c.timestamp, c.author)
  have hdrop5 : (markerLine c).drop 5 =
      c.timestamp ++ ']' :: (sep3 ++ c.author) := by
    rw [markerLine_eq₁, List.append_assoc]
    exact List.drop_left' (by simp [markerPre_eq])
  have htake : (c.timestamp ++ ']' :: (sep3 ++ c.author)).take
      (5 + c.timestamp.length - 5) = c.timestamp := by
    rw [show 5 + c.timestamp.length - 5 = c.timestamp.length by omega]
    exact List.take_left c.timestamp _
  have hdrop2 : (markerLine c).drop (5 + c.timestamp.length + 1) =
      sep3 ++ c.author := by
    rw [markerLine_eq₂]
    exact List.drop_left' (by simp [markerPre_eq]; omega)
  have hauthor : parseAuthor (sep3 ++ c.author) = c.author := by
    unfold parseAuthor
    rw [begins_some_zero (begins_append_self sep3 _)]
    show trim ((sep3 ++ c.author).drop (0 + 3)) = c.author
    have hd : (sep3 ++ c.author).drop (0 + 3) = c.author :=
      List.drop_left' (by simp [sep3_eq])
    rw [hd, h4]
  rw [hdrop5, htake, hdrop2, hauthor]

theorem begins_markerLine (c : Comment) :
    begins markerPre (markerLine c) = true := by
  rw [markerLine_eq₁, List.append_assoc]
  exact begins_append_self _ _

theorem scan_other_some {l : Str} (hm : begins markerPre l = false)
    (hh : begins hh2 l = false) (ls : List Str) (p : Str × Str)
    (acc : List Str) :
    scan (l :: ls) (some p) acc = scan ls (some p) (acc ++ [l]) := by
  rw [scan_cons, if_neg (ne_true_of_eq_false hm), if_neg (ne_true_of_eq_false hh)]

theorem scan_other_none {l : Str} (hm : begins markerPre l = false)
    (hh : begins hh2 l = false) (ls : List Str) (acc : List Str) :
    scan (l :: ls) none acc = scan ls none acc := by
  rw [scan_cons, if_neg (ne_true_of_eq_false hm), if_neg (ne_true_of_eq_false hh)]

theorem scan_marker_some {l : Str} (hm : begins markerPre l = true)
    (ls : List Str) (p : Str × Str) (acc : List Str) :
    scan (l :: ls) (some p) acc =
      (p.1, p.2, trim (joinNl acc)) :: scan ls (parseMarker l) [] := by
  rw [scan_cons, if_pos hm]

theorem scan_marker_none {l : Str} (hm : begins markerPre l = true)
    (ls : List Str) (acc : List Str) :
    scan (l :: ls) none acc = scan ls (parseMarker l) acc := by
  rw [scan_cons, if_pos hm]

/-- The lines contributed by one entry block: a blank line, the marker
line, then the content's lines. -/
def blockLines (c : Comment) : List Str :=
  [] :: markerLine c :: splitOnNl c.content

/-- The line list of a rendered comment list. -/
def linesOfEntries : List Comment → List Str
  | [] => []
  | c :: cs => blockLines c ++ linesOfEntries cs

theorem lines_render (C : List Comment) (hwf : ∀ c ∈ C, wfComment c) :
    rustLines (renderEntries C) = linesOfEntries C := by
  induction C with
  | nil => rfl
  | cons c cs ih =>
    obtain ⟨hts, hbr, hanl, hatrim, hcr, hlines⟩ := hwf c (List.mem_cons_self c cs)
    show rustLines (entryBlock c ++ renderEntries cs) =
      blockLines c ++ linesOfEntries cs
    rw [entryBlock_eq, List.append_assoc]
    rw [show ('\n' :: (c.content ++ ['\n'])) ++ renderEntries cs =
      '\n' :: ((c.content ++ ['\n']) ++ renderEntries cs) from rfl]
    rw [rustLines_append_nl]
    rw [splitOnNl_cons_nl, splitOnNl_no_nl (nl_not_mem_markerLine hts hanl)]
    rw [List.map_cons, List.map_cons, List.map_nil]
    rw [show stripCR [] = ([] : Str) from rfl, stripCR_markerLine hatrim]
    rw [List.append_assoc]
    rw [show (['\n'] : Str) ++ renderEntries cs = '\n' :: renderEntries cs from rfl]
    rw [rustLines_append_nl, map_stripCR_of_no_cr hcr,
      ih (fun x hx => hwf x (List.mem_cons_of_mem c hx))]
    simp [blockLines, List.append_assoc]

theorem scan_entries_go (C : List Comment) (hwf : ∀ c ∈ C, wfComment c)
    (p : Str × Str) (acc : List Str) :
    scan (linesOfEntries C) (some p) acc =
      (p.1, p.2, trim (joinNl acc)) ::
        C.map (fun c => (c.timestamp, c.author, trim c.content)) := by
  induction C generalizing p acc with
  | nil => rfl
  | cons c cs ih =>
    obtain ⟨hts, hbr, hanl, hatrim, hcr, hlines⟩ := hwf c (List.mem_cons_self c cs)
    show scan (([] : Str) :: markerLine c ::
      (splitOnNl c.content ++ linesOfEntries cs)) (some p) acc = _
    rw [scan_other_some (by decide) (by decide),
      scan_marker_some (begins_markerLine c), parse_markerLine hbr hatrim,
      scan_acc hlines _ (c.timestamp, c.author) [], List.nil_append,
      ih (fun x hx => hwf x (List.mem_cons_of_mem c hx)),
      trim_joinNl_snoc_empty acc, joinNl_splitOnNl]
    rfl

theorem scan_entries (C : List Comment) (hwf : ∀ c ∈ C, wfComment c) :
    scan (linesOfEntries C) none [] =
      C.map (fun c => (c.timestamp, c.author, trim c.content)) := by
  cases C with
  | nil => rfl
  | cons c cs =>
    obtain ⟨hts, hbr, hanl, hatrim, hcr, hlines⟩ := hwf c (List.mem_cons_self c cs)
    show scan (([] : Str) :: markerLine c ::
      (splitOnNl c.content ++ linesOfEntries cs)) none [] = _
    rw [scan_other_none (by decide) (by decide),
      scan_marker_none (begins_markerLine c), parse_markerLine hbr hatrim,
      scan_acc hlines _ (c.timestamp, c.author) [], List.nil_append,
      scan_entries_go cs (fun x hx => hwf x (List.mem_cons_of_mem c hx)),
      joinNl_splitOnNl]
    rfl

theorem endsWith_iff {suf s : Str} : endsWith suf s = true ↔ ∃ a, s = a ++ suf := by
  unfold endsWith
  rw [begins_iff]
  constructor
  · rintro ⟨t, ht⟩
    refine ⟨t.reverse, ?_⟩
    have hrev := congrArg List.reverse ht
    simpa [List.reverse_append] using hrev
  · rintro ⟨a, rfl⟩
    exact ⟨a.reverse, by simp [List.reverse_append]⟩

theorem begins_length_le {p s : Str} (h : begins p s = true) :
    p.length ≤ s.length := by
  obtain ⟨t, rfl⟩ := begins_iff.mp h
  simp

theorem findSub_snoc_nl {bw : Str} (h1 : findSub pat13 bw = none)
    (h2 : endsWith (S ("\n## Comments")) bw = false) :
    findSub pat13 (bw ++ ['\n']) = none := by
  refine findSub_none_iff.mpr fun m => not_begins fun htrue => ?_
  by_cases hm : m ≤ bw.length
  · rw [drop_app_of_le ['\n'] hm] at htrue
    rcases le_or_lt pat13.length (bw.drop m).length with hge | hlt
    · rw [begins_append_left _ hge] at htrue
      have := findSub_none_iff.mp h1 m
      rw [this] at htrue
      exact Bool.noConfusion htrue
    · rcases (begins_split ['\n'] (le_of_lt hlt)).mp htrue with ⟨hpre, hsuf⟩
      have hk1 : pat13.length - (bw.drop m).length ≤ 1 := by
        have := begins_length_le hsuf
        simpa using this
      have hk13 : (bw.drop m).length = 12 := by
        rw [pat13_eq] at hk1 hlt
        simp only [List.length_cons, List.length_nil] at hk1 hlt
        omega
      rw [hk13] at hpre
      have hend : endsWith (S ("\n## Comments")) bw = true := by
        refine endsWith_iff.mpr ⟨bw.take m, ?_⟩
        conv_lhs => rw [← List.take_append_drop m bw]
        rw [hpre]
        rfl
      rw [h2] at hend
      exact Bool.noConfusion hend
  · rw [List.drop_eq_nil_of_le (by simp; omega)] at htrue
    exact absurd htrue (by decide)

theorem findSub_write {bw : Str} (E : Str) (h1 : findSub pat13 bw = none)
    (h2 : endsWith (S ("\n## Comments")) bw = false) :
    findSub pat13 ((bw ++ ['\n']) ++ (pat13 ++ E)) = some (bw.length + 1) := by
  have hnone := findSub_snoc_nl h1 h2
  have hres := findSub_glue (h := bw ++ ['\n']) E hnone ?_
  · rwa [List.length_append, List.length_singleton] at hres
  · intro m h1m hm hAB
    obtain ⟨hdropEq, hbeg⟩ := hAB
    by_cases hm12 : m = 12
    · subst hm12
      have hlast := congrArg List.getLast? hdropEq
      rw [List.getLast?_drop, if_neg (by
        simp only [List.length_append, List.length_singleton]
        omega)] at hlast
      rw [List.getLast?_append_of_ne_nil _ (by simp : (['\n'] : Str) ≠ [])]
        at hlast
      rw [show ((['\n'] : Str).getLast? = some '\n') from rfl] at hlast
      rw [show (pat13.take 12).getLast? = some 's' from rfl] at hlast
      exact absurd hlast (by decide)
    · have hne : pat13.drop m ≠ [] := by
        have hlen : (pat13.drop m).length = pat13.length - m := by simp
        intro hnil
        rw [hnil] at hlen
        rw [pat13_eq] at hlen hm
        simp only [List.length_cons, List.length_nil] at hlen hm
        omega
      have hh := begins_head hne hbeg
      rw [show (pat13 ++ E).head? = some '\n' from rfl] at hh
      have hkey : ∀ k, k < 12 → 1 ≤ k → (pat13.drop k).head? ≠ some '\n' := by
        decide
      rw [pat13_eq] at hm
      simp only [List.length_cons, List.length_nil] at hm
      exact hkey m (by omega) h1m hh.symm

theorem trim_idem (s : Str) : trim (trim s) = trim s := by
  cases hs : trim s with
  | nil => rfl
  | cons a t =>
    rw [← hs]
    refine trim_eq_self ?_ ?_
    · intro c hc
      exact trim_head_not_ws hc
    · intro c hc
      exact trim_getLast_not_ws hc

theorem withIdsFrom_projTrim (ids : Nat → Str) (i : Nat)
    (ts : List (Str × Str × Str)) :
    (withIdsFrom ids i ts).map (fun c => (c.timestamp, c.author, trim c.content)) =
      ts.map (fun t => (t.1, t.2.1, trim t.2.2)) := by
  induction ts generalizing i with
  | nil => rfl
  | cons t ts' ih =>
    show (t.1, t.2.1, trim t.2.2) ::
      (withIdsFrom ids (i + 1) ts').map
        (fun c => (c.timestamp, c.author, trim c.content)) = _
    rw [ih]
    rfl

theorem write_comments_cons (b : Str) (C : List Comment) (hC : C ≠ []) :
    write_comments b C =
      ((bodyWithout b) ++ ['\n']) ++ (pat13 ++ renderEntries C) := by
  unfold write_comments
  rw [if_neg hC, show S ("\n\n## Comments\n") = '\n' :: pat13 from rfl]
  simp [List.append_assoc]

/-- Claim C2 counterexample: a comment whose content is the single line
`## X` does not survive the round trip — the reader treats the line as a
section boundary and returns the comment with empty content. -/
theorem claim_C2_counterexample :
    (read_comments (fun _ => [])
        (write_comments [] [⟨S ("i"), S ("a"), S ("t"), S ("## X")⟩])).map
        (fun c => (c.timestamp, c.author, trim c.content)) ≠
      [(⟨S ("i"), S ("a"), S ("t"), S ("## X")⟩ : Comment)].map
        (fun c => (c.timestamp, c.author, trim c.content)) := by
  decide

/-- Claim C2 (amended): the round trip
`read_comments (write_comments b C)` recovers exactly the
(author, timestamp, trim-normalized content) triples of `C`, in order,
provided every comment is storage-well-formed (timestamps without newline
or `]`, authors trim-stable and newline-free, contents without carriage
returns and without lines that look like entry markers or section
headings) and the comments-stripped body neither ends with
`"\n## Comments"` nor begins with `"## Comments\n"`. -/
theorem claim_C2_amended (ids : Nat → Str) (b : Str) (C : List Comment)
    (hwf : ∀ c ∈ C, wfComment c)
    (h1 : endsWith (S ("\n## Comments")) (bodyWithout b) = false)
    (h2 : begins headNl (bodyWithout b) = false) :
    (read_comments ids (write_comments b C)).map
        (fun c => (c.timestamp, c.author, trim c.content)) =
      C.map (fun c => (c.timestamp, c.author, trim c.content)) := by
  cases C with
  | nil =>
    show (read_comments ids (bodyWithout b)).map _ = _
    unfold read_comments
    rw [bodyWithout_no_pat b]
    show ((if begins headNl (bodyWithout b) then
      withIdsFrom ids 0 (scan (rustLines ((bodyWithout b).drop 12)) none [])
      else []).map fun c => (c.timestamp, c.author, trim c.content)) = _
    rw [if_neg (ne_true_of_eq_false h2)]
  | cons c0 cs =>
    rw [write_comments_cons b (c0 :: cs) (by simp)]
    have hff := findSub_write (renderEntries (c0 :: cs)) (bodyWithout_no_pat b) h1
    rw [read_at ids hff]
    have hsec : (((bodyWithout b) ++ ['\n']) ++
        (pat13 ++ renderEntries (c0 :: cs))).drop
        ((bodyWithout b).length + 1 + 13) = renderEntries (c0 :: cs) := by
      rw [← List.append_assoc]
      refine List.drop_left' ?_
      simp [pat13_eq]
    rw [hsec, lines_render _ hwf, scan_entries _ hwf, withIdsFrom_projTrim,
      List.map_map]
    refine List.map_congr_left fun a ha => ?_
    show (a.timestamp, a.author, trim (trim a.content)) =
      (a.timestamp, a.author, trim a.content)
    rw [trim_idem]

/-- Witness for the amended C2 at a concrete body and comment list. -/
theorem claim_C2_amended_witness :
    (read_comments (fun _ => [])
        (write_comments (S ("intro"))
          [⟨S ("9"), S ("alice"), S ("t1"), S ("hello")⟩])).map
        (fun c => (c.timestamp, c.author, trim c.content)) =
      [(⟨S ("9"), S ("alice"), S ("t1"), S ("hello")⟩ : Comment)].map
        (fun c => (c.timestamp, c.author, trim c.content)) :=
  claim_C2_amended (fun _ => []) (S ("intro"))
    [⟨S ("9"), S ("alice"), S ("t1"), S ("hello")⟩]
    (by decide) (by decide) (by decide)

/-- Claim C3: frontmatter round trip.  For a header value `h` that the
external serializer round-trips (`hde`), whose serialization ends with a
newline (`hser`) and contains no line beginning with the delimiter
(`hclean`) — together the "valid header value" of the claim — and a
trimmed non-empty body `b`, decoding the encoded document succeeds and
returns exactly `h` and exactly `b`. -/
theorem claim_C3 {H : Type} (ser : H → Str) (de : Str → Except Unit H) (h : H)
    (b : Str) (hb : trim b = b) (hbne : b ≠ [])
    {w : Str} (hser : ser h = w ++ ['\n'])
    (hclean : findSub nl3 ('\n' :: w) = none)
    (hde : de ('\n' :: w) = Except.ok h) :
    parse_frontmatter de (write_with_frontmatter ser h b) = Except.ok (h, b) := by
  obtain ⟨b0, bt, hb0⟩ := List.exists_cons_of_ne_nil hbne
  have hcontent : write_with_frontmatter ser h b =
      d3 ++ (('\n' :: w) ++ (nl3 ++ ('\n' :: '\n' :: b))) := by
    unfold write_with_frontmatter
    rw [hser, hb]
    simp [nl3_eq, d3_eq, List.append_assoc]
  have htrim : trim (write_with_frontmatter ser h b) =
      write_with_frontmatter ser h b := by
    refine trim_eq_self ?_ ?_
    · intro c hc
      rw [hcontent] at hc
      rw [show (d3 ++ (('\n' :: w) ++ (nl3 ++ ('\n' :: '\n' :: b)))).head? =
        some '-' from rfl] at hc
      cases Option.some.inj hc
      decide
    · intro c hc
      rw [hcontent] at hc
      rw [List.getLast?_append_of_ne_nil _
        (show ('\n' :: w) ++ (nl3 ++ ('\n' :: '\n' :: b)) ≠ [] by simp)] at hc
      rw [List.getLast?_append_of_ne_nil _
        (show nl3 ++ ('\n' :: '\n' :: b) ≠ [] by simp [nl3_eq])] at hc
      rw [List.getLast?_append_of_ne_nil _
        (show ('\n' :: '\n' :: b) ≠ [] by simp)] at hc
      rw [hb0, List.getLast?_cons_cons, List.getLast?_cons_cons] at hc
      exact trim_getLast_not_ws (show (trim b).getLast? = some c by
        rw [hb, hb0]; exact hc)
  have hd : begins d3 (trim (write_with_frontmatter ser h b)) = true := by
    rw [htrim, hcontent]
    exact begins_append_self _ _
  have hsplit : (trim (write_with_frontmatter ser h b)).drop 3 =
      ('\n' :: w) ++ (nl3 ++ ('\n' :: '\n' :: b)) := by
    rw [htrim, hcontent]
    exact List.drop_left' (by simp [d3_eq])
  have hmain := parse_split_at de (write_with_frontmatter ser h b) hd hsplit
    hclean hde
  rw [hmain, trim_cons_ws _ (by decide), trim_cons_ws _ (by decide), hb]

/-- Witness for C3 with a concrete one-field serializer. -/
theorem claim_C3_witness :
    parse_frontmatter
      (fun s => match s with
        | '\n' :: 't' :: ':' :: r => Except.ok r
        | _ => Except.error ())
      (write_with_frontmatter (fun v => S ("t:") ++ v ++ ['\n']) (S ("abc"))
        (S ("Body."))) = Except.ok (S ("abc"), S ("Body.")) :=
  claim_C3 (fun v => S ("t:") ++ v ++ ['\n'])
    (fun s => match s with
      | '\n' :: 't' :: ':' :: r => Except.ok r
      | _ => Except.error ())
    (S ("abc")) (S ("Body.")) (by decide) (by decide) (w := S ("t:abc"))
    (by decide) (by decide) (by decide)
